import Mathlib

/-!
Verification of the threadedcomments data model (`threadedcomments/models.py`).

The embedding models:
* a comment record (`Comment`, and the anonymous variant `FreeComment`) with the
  fields the module's logic reads or writes; the dynamically attached `depth`
  annotation is an explicit field;
* `dfs` / `get_tree` (`ThreadedCommentManager.get_tree`): the persisted store is a
  `List Comment` in queryset iteration order; since the Python recursion can
  diverge on cyclic `parent` links, `dfs` takes an explicit fuel argument and
  returns `none` exactly when the fuel runs out (`get_tree` supplies
  `pool.length + 1` fuel, which is proved sufficient whenever ids are distinct);
* `PublicThreadedCommentManager.get_query_set` as a list filter;
* `ThreadedComment.save` / `FreeThreadedComment.save` write-path normalization,
  with `datetime.now()` modelled by an explicit `now : Nat` parameter;
* `get_for_object` on top of the host framework's single-row `get`.
-/

namespace ThreadedComments

/-- Markup enum value `MARKDOWN = 1` from models.py. -/
def MARKDOWN : Nat := 1

/-- Markup enum value `TEXTILE = 2` from models.py. -/
def TEXTILE : Nat := 2

/-- Markup enum value `REST = 3` from models.py. -/
def REST : Nat := 3

/-- Markup enum value `PLAINTEXT = 5` from models.py. -/
def PLAINTEXT : Nat := 5

/-- The polymorphic owner reference: the `(content_type, object_id)` pair a comment
is attached to. -/
structure Owner where
  ownerType : Nat
  ownerId : Nat
  deriving DecidableEq

/-- A `ThreadedComment` row.  `parent` holds the nullable parent id
(`parent = none` means a root comment).  `depth` is the attribute `dfs` annotates
in place; it is not read by any query logic. -/
structure Comment where
  id : Nat
  owner : Owner
  parent : Option Nat
  user : Nat
  comment : String
  markup : Option Nat
  isPublic : Bool
  isApproved : Bool
  dateSubmitted : Nat
  dateModified : Nat
  dateApproved : Option Nat
  depth : Nat
  deriving DecidableEq

/-- A `FreeThreadedComment` row: same fields as `Comment` with the user reference
replaced by inline name/website/email. -/
structure FreeComment where
  id : Nat
  owner : Owner
  parent : Option Nat
  name : String
  website : String
  email : String
  comment : String
  markup : Option Nat
  isPublic : Bool
  isApproved : Bool
  dateSubmitted : Nat
  dateModified : Nat
  dateApproved : Option Nat
  depth : Nat
  deriving DecidableEq

/-- The child-scan loop inside `dfs`: `for subnode in all_nodes: if subnode.parent
and subnode.parent.id == node.id: to_return.extend(dfs(subnode, all_nodes,
depth+1))`.  The recursive `dfs` call is passed in as `rec`; `none` propagates a
fuel exhaustion from a recursive call. -/
def scanChildren (rec : Comment → Nat → Option (List Comment)) (node : Comment)
    (scan : List Comment) (depth : Nat) : Option (List Comment) :=
  match scan with
  | [] => some []
  | s :: rest =>
    if s.parent == some node.id then
      match rec s (depth + 1) with
      | none => none
      | some t =>
        match scanChildren rec node rest depth with
        | none => none
        | some ts => some (t ++ ts)
    else scanChildren rec node rest depth

/-- `dfs(node, all_nodes, depth)` from models.py: annotates `node.depth = depth`,
emits `node`, then recursively emits the subtree of every element of `all_nodes`
whose parent id equals `node.id`, in scan order.  The Python function has no fuel
and diverges on parent cycles reachable from `node`; here exhausting `fuel`
yields `none`. -/
def dfs : Nat → Comment → List Comment → Nat → Option (List Comment)
  | 0, _, _, _ => none
  | fuel + 1, node, all_nodes, depth =>
    match scanChildren (fun s d => dfs fuel s all_nodes d) node all_nodes depth with
    | none => none
    | some ts => some ({ node with depth := depth } :: ts)

/-- The root loop of `get_tree`: `for child in children: if not child.parent:
to_return.extend(dfs(child, children, 0))`. -/
def rootsLoop (fuel : Nat) (children : List Comment) : List Comment → Option (List Comment)
  | [] => some []
  | c :: rest =>
    if c.parent.isNone then
      match dfs fuel c children 0 with
      | none => none
      | some t =>
        match rootsLoop fuel children rest with
        | none => none
        | some ts => some (t ++ ts)
    else rootsLoop fuel children rest

/-- The queryset fetch inside `get_tree`: all comments whose `(content_type,
object_id)` pair matches the given owner, in store order. -/
def fetchFor (store : List Comment) (o : Owner) : List Comment :=
  store.filter (fun c => c.owner == o)

/-- `ThreadedCommentManager.get_tree(content_object)`: fetch the owner's comments,
then run the root loop.  The fuel `pool.length + 1` is sufficient whenever the
pool's ids are distinct (proved below), so a `none` result models the Python
recursion failing to terminate. -/
def get_tree (store : List Comment) (o : Owner) : Option (List Comment) :=
  rootsLoop ((fetchFor store o).length + 1) (fetchFor store o) (fetchFor store o)

/-- Python falsiness of the nullable integer `markup` field: `None` and `0` are
falsy, any other integer is truthy. -/
def markupFalsy : Option Nat → Bool
  | none => true
  | some n => n == 0

/-- `ThreadedComment.save`: default falsy markup to `PLAINTEXT`, refresh
`date_modified`, and stamp `date_approved` on the first save that finds it unset
with `is_approved` true.  Both `datetime.now()` calls are modelled by `now`. -/
def Comment.save (now : Nat) (c : Comment) : Comment :=
  let c₁ := if markupFalsy c.markup then { c with markup := some PLAINTEXT } else c
  let c₂ := { c₁ with dateModified := now }
  if c₂.dateApproved.isNone && c₂.isApproved then { c₂ with dateApproved := some now } else c₂

/-- `FreeThreadedComment.save`: identical write-path normalization as
`Comment.save`. -/
def FreeComment.save (now : Nat) (c : FreeComment) : FreeComment :=
  let c₁ := if markupFalsy c.markup then { c with markup := some PLAINTEXT } else c
  let c₂ := { c₁ with dateModified := now }
  if c₂.dateApproved.isNone && c₂.isApproved then { c₂ with dateApproved := some now } else c₂

/-- `PublicThreadedCommentManager.get_query_set`: the base queryset restricted by
`Q(is_public=True) | Q(is_approved=True)`. -/
def public_get_query_set (store : List Comment) : List Comment :=
  store.filter (fun c => c.isPublic || c.isApproved)

/-- The two failure kinds of a single-row fetch. -/
inductive GetError where
  | NotFound
  | MultipleResults
  deriving DecidableEq

/-- Modelled from the spec: the host framework's single-row `get` (Django
`QuerySet.get`, not part of this repository) returns the unique matching record,
fails with NotFound if zero records match and with MultipleResults if more than
one does. -/
def djangoGet (store : List Comment) (q : Comment → Bool) : Except GetError Comment :=
  match store.filter q with
  | [] => Except.error GetError.NotFound
  | [c] => Except.ok c
  | _ :: _ :: _ => Except.error GetError.MultipleResults

/-- `ThreadedCommentManager.get_for_object`: merge the owner reference into the
caller's filter fields (`_generate_object_kwarg_dict`), then delegate to `get`. -/
def get_for_object (store : List Comment) (o : Owner) (q : Comment → Bool) :
    Except GetError Comment :=
  djangoGet store (fun c => c.owner == o && q c)

/-- A comment record with its `depth` annotation reset, used to compare records
up to the in-place mutation `dfs` performs. -/
def eraseDepth (c : Comment) : Comment :=
  { c with depth := 0 }

/-- The pool's primary keys are pairwise distinct. -/
def NodupIds (pool : List Comment) : Prop :=
  (pool.map Comment.id).Nodup

instance (pool : List Comment) : Decidable (NodupIds pool) :=
  inferInstanceAs (Decidable ((pool.map Comment.id).Nodup))

/-- Row lookup by primary key, mirroring what dereferencing the `parent` foreign
key does within one owner's pool. -/
def findById (pool : List Comment) (i : Nat) : Option Comment :=
  pool.find? (fun c => c.id == i)

/-- Number of ancestors of `c` within `pool`, following `parent` ids upward until
a root or a parent that is absent from the pool; `none` when `fuel` runs out
(which, at fuel `pool.length + 1`, only happens on a parent cycle). -/
def ancCountF : Nat → List Comment → Comment → Option Nat
  | 0, _, _ => none
  | fuel + 1, pool, c =>
    match c.parent with
    | none => some 0
    | some p =>
      match findById pool p with
      | none => some 0
      | some q => (ancCountF fuel pool q).map (· + 1)

/-- Whether the ancestor chain of `c` within `pool` reaches a root (a comment
with no parent) before `fuel` runs out. -/
def reachF : Nat → List Comment → Comment → Bool
  | 0, _, _ => false
  | fuel + 1, pool, c =>
    match c.parent with
    | none => true
    | some p =>
      match findById pool p with
      | none => false
      | some q => reachF fuel pool q

/-- The pool has no cycle among its `parent` links: every ancestor chain resolves
within `pool.length` steps. -/
def AcyclicPool (pool : List Comment) : Prop :=
  ∀ c ∈ pool, (ancCountF (pool.length + 1) pool c).isSome

instance (pool : List Comment) : Decidable (AcyclicPool pool) :=
  inferInstanceAs (Decidable (∀ c ∈ pool, (ancCountF (pool.length + 1) pool c).isSome))

/-- Number of elements of `l` carrying id `i`. -/
def cntId (i : Nat) (l : List Comment) : Nat :=
  l.countP (fun c => c.id == i)

/-- A list of comments forming an ancestor chain: each element's parent is the
next element, and the last element is a root. -/
def LinkedChain : List Comment → Prop
  | [] => True
  | [c] => c.parent = none
  | c :: p :: rest => c.parent = some p.id ∧ LinkedChain (p :: rest)

/-- Every element of `ts` after a (possibly empty) prefix either has its parent
occurring in that prefix one depth level up, or is a direct child of the node
with id `nid` emitted at depth `d + 1`.  This is the shape of the child-subtree
concatenation `dfs` produces under a node of id `nid` at depth `d`. -/
def ChildLinked (nid d : Nat) (ts : List Comment) : Prop :=
  ∀ l₁ c l₂ p, ts = l₁ ++ c :: l₂ → c.parent = some p →
    (∃ b ∈ l₁, b.id = p ∧ b.depth + 1 = c.depth) ∨ (p = nid ∧ c.depth = d + 1)

/- Concrete store used by the C4 scenario and by witnesses. -/

/-- The owner used in concrete scenarios. -/
def ownerO : Owner := ⟨1, 1⟩

/-- A second owner used in the cross-owner scenarios. -/
def ownerP : Owner := ⟨1, 2⟩

/-- Build a comment attached to `w` with id `i` and parent `p`; the remaining
fields take inert defaults. -/
def mkC (w : Owner) (i : Nat) (p : Option Nat) : Comment :=
  { id := i, owner := w, parent := p, user := 0, comment := "", markup := some 5,
    isPublic := true, isApproved := false, dateSubmitted := i, dateModified := i,
    dateApproved := none, depth := 0 }

/-- Comment A of the C4 scenario: a root. -/
def cA : Comment := mkC ownerO 1 none

/-- Comment B of the C4 scenario: child of A. -/
def cB : Comment := mkC ownerO 2 (some 1)

/-- Comment C of the C4 scenario: a root. -/
def cC : Comment := mkC ownerO 3 none

/-- Comment D of the C4 scenario: child of B. -/
def cD : Comment := mkC ownerO 4 (some 2)

/-- The C4 store, in submission order A, B, C, D. -/
def storeABCD : List Comment := [cA, cB, cC, cD]

/-- The depth-annotated sequence `get_tree` produces on `storeABCD`. -/
def treeABCD : List Comment :=
  [{ cA with depth := 0 }, { cB with depth := 1 },
    { cD with depth := 2 }, { cC with depth := 0 }]

/-- A store whose parent links contain a two-cycle (ids 2 and 3) next to a root. -/
def storeCycle : List Comment :=
  [mkC ownerO 1 none, mkC ownerO 2 (some 3), mkC ownerO 3 (some 2)]

/-- A store where the comment with id 5 (owned by `ownerO`) has its parent link
pointing at a comment owned by `ownerP`. -/
def storeCross : List Comment :=
  [mkC ownerP 9 none, mkC ownerO 5 (some 9)]

/-- A free comment with no markup kind, used by witnesses. -/
def fcBlank : FreeComment :=
  { id := 1, owner := ownerO, parent := none, name := "", website := "", email := "",
    comment := "", markup := none, isPublic := true, isApproved := false,
    dateSubmitted := 0, dateModified := 0, dateApproved := none, depth := 0 }

/-- A comment with no markup kind and `is_approved` set, used by witnesses. -/
def cFresh : Comment :=
  { mkC ownerO 1 none with markup := none, isApproved := true }

/-- Splitting an appended list at a distinguished element: the element lies in
the left part or in the right part. -/
theorem append_eq_append_cons {α : Type} (u v l₁ : List α) (c : α) (l₂ : List α)
    (h : u ++ v = l₁ ++ c :: l₂) :
    (∃ l₂', u = l₁ ++ c :: l₂' ∧ l₂ = l₂' ++ v) ∨
      (∃ l₁', l₁ = u ++ l₁' ∧ v = l₁' ++ c :: l₂) := by
  induction u generalizing l₁ with
  | nil =>
    right
    exact ⟨l₁, rfl, h⟩
  | cons x u ih =>
    cases l₁ with
    | nil =>
      left
      simp only [List.nil_append] at h ⊢
      rw [List.cons_append] at h
      injection h with h1 h2
      exact ⟨u, by rw [h1], h2.symm⟩
    | cons y l₁ =>
      rw [List.cons_append, List.cons_append] at h
      injection h with h1 h2
      rcases ih l₁ h2 with ⟨l₂', hu, hl⟩ | ⟨l₁', hl, hv⟩
      · left
        exact ⟨l₂', by rw [List.cons_append, h1, hu], hl⟩
      · right
        exact ⟨l₁', by rw [List.cons_append, hl, h1], hv⟩

/-- Summing an indicator over a list counts the matching elements. -/
theorem sum_map_indicator (v : List Nat) (p : Nat → Bool) :
    (v.map (fun i => if p i then 1 else 0)).sum = v.countP p := by
  induction v with
  | nil => rfl
  | cons x v ih =>
    simp only [List.map_cons, List.sum_cons, List.countP_cons, ih]
    omega

/-- Sums of pointwise sums split. -/
theorem sum_map_add (v : List Nat) (f g : Nat → Nat) :
    (v.map (fun i => f i + g i)).sum = (v.map f).sum + (v.map g).sum := by
  induction v with
  | nil => rfl
  | cons x v ih =>
    simp only [List.map_cons, List.sum_cons, ih]
    omega

/-- In a duplicate-free list, an element present in it is counted exactly once
by the equality predicate. -/
theorem countP_beq_one (v : List Nat) (a : Nat) (hn : v.Nodup) (ha : a ∈ v) :
    v.countP (fun i => a == i) = 1 := by
  induction v with
  | nil => cases ha
  | cons x v ih =>
    rw [List.nodup_cons] at hn
    rcases List.mem_cons.mp ha with rfl | hav
    · have hz : v.countP (fun i => a == i) = 0 := by
        rw [List.countP_eq_zero]
        intro b hb
        have hne : a ≠ b := fun e => hn.1 (e ▸ hb)
        simp [hne]
      simp [List.countP_cons, hz]
    · have hx : (a == x) = false := by
        have hne : a ≠ x := fun e => hn.1 (e ▸ hav)
        simp [hne]
      simp [List.countP_cons, ih hn.2 hav, hx]

/-- Number of elements of `l` with id `i`, over an appended list. -/
theorem cntId_append (i : Nat) (u v : List Comment) :
    cntId i (u ++ v) = cntId i u + cntId i v :=
  List.countP_append _ _ _

/-- Number of elements with id `i`, cons step. -/
theorem cntId_cons (i : Nat) (c : Comment) (u : List Comment) :
    cntId i (c :: u) = cntId i u + (if c.id = i then 1 else 0) := by
  simp [cntId, List.countP_cons]

/-- Summing the per-id occurrence counts over a duplicate-free id cover of `u`
recovers the length of `u`. -/
theorem cnt_sum (u : List Comment) (v : List Nat) (hn : v.Nodup)
    (hu : ∀ c ∈ u, c.id ∈ v) :
    (v.map (fun i => cntId i u)).sum = u.length := by
  induction u with
  | nil => simp [cntId]
  | cons c u ih =>
    have h1 : v.map (fun i => cntId i (c :: u)) =
        v.map (fun i => cntId i u + (if c.id == i then 1 else 0)) := by
      apply List.map_congr_left
      intro i _
      rw [cntId_cons]
      by_cases h : c.id = i <;> simp [h]
    rw [h1, sum_map_add, sum_map_indicator,
      ih (fun b hb => hu b (List.mem_cons_of_mem _ hb)),
      countP_beq_one v c.id hn (hu c (List.mem_cons_self _ _))]
    simp

/-- A sum of values each at most one is at most the length, with equality iff
every value equals one. -/
theorem sum_map_le_length (v : List Nat) (f : Nat → Nat) (hf : ∀ i ∈ v, f i ≤ 1) :
    (v.map f).sum ≤ v.length ∧ ((v.map f).sum = v.length ↔ ∀ i ∈ v, f i = 1) := by
  induction v with
  | nil => simp
  | cons x v ih =>
    obtain ⟨ih1, ih2⟩ := ih (fun i hi => hf i (List.mem_cons_of_mem _ hi))
    have hx := hf x (List.mem_cons_self _ _)
    simp only [List.map_cons, List.sum_cons, List.length_cons]
    constructor
    · omega
    · constructor
      · intro h i hi
        rcases List.mem_cons.mp hi with rfl | hiv
        · omega
        · exact ih2.mp (by omega) i hiv
      · intro h
        have hxx : f x = 1 := h x (List.mem_cons_self _ _)
        have hv : (v.map f).sum = v.length :=
          ih2.mpr (fun i hi => h i (List.mem_cons_of_mem _ hi))
        omega

/-- Distinct ids make the id projection injective on the pool. -/
theorem id_inj {pool : List Comment} (hnd : NodupIds pool) {a b : Comment}
    (ha : a ∈ pool) (hb : b ∈ pool) (h : a.id = b.id) : a = b :=
  List.inj_on_of_nodup_map hnd ha hb h

/-- In a pool with distinct ids, an id of a pool member is counted exactly once
by any predicate that the member satisfies. -/
theorem countP_id_eq_one {pool : List Comment} (hnd : NodupIds pool) {c : Comment}
    (hc : c ∈ pool) (b : Comment → Bool) (hb : b c = true) :
    pool.countP (fun s => b s && (s.id == c.id)) = 1 := by
  induction pool with
  | nil => cases hc
  | cons x pool ih =>
    have hnd' : NodupIds pool := by
      simp only [NodupIds, List.map_cons, List.nodup_cons] at hnd
      exact hnd.2
    have hxid : x.id ∉ pool.map Comment.id := by
      simp only [NodupIds, List.map_cons, List.nodup_cons] at hnd
      exact hnd.1
    rcases List.mem_cons.mp hc with rfl | hcp
    · have hz : pool.countP (fun s => b s && (s.id == c.id)) = 0 := by
        rw [List.countP_eq_zero]
        intro s hs hss
        apply hxid
        have hsc : s.id = c.id := by
          simp only [Bool.and_eq_true, beq_iff_eq] at hss
          exact hss.2
        exact hsc ▸ List.mem_map_of_mem _ hs
      simp [List.countP_cons, hz, hb]
    · have hxc : (x.id == c.id) = false := by
        have hne : x.id ≠ c.id := by
          intro e
          exact hxid (e ▸ List.mem_map_of_mem _ hcp)
        simp [hne]
      simp [List.countP_cons, ih hnd' hcp, hxc]

/-- A successful `findById` returns a pool member carrying the requested id. -/
theorem findById_mem {pool : List Comment} {p : Nat} {q : Comment}
    (h : findById pool p = some q) : q ∈ pool ∧ q.id = p := by
  refine ⟨List.mem_of_find?_eq_some h, ?_⟩
  have := List.find?_some h
  simpa using this

/-- In a pool with distinct ids, looking up a member's own id finds it. -/
theorem findById_self {pool : List Comment} (hnd : NodupIds pool) {c : Comment}
    (hc : c ∈ pool) : findById pool c.id = some c := by
  have hs : (pool.find? (fun s => s.id == c.id)).isSome := by
    rw [List.find?_isSome]
    exact ⟨c, hc, by simp⟩
  obtain ⟨q, hq⟩ := Option.isSome_iff_exists.mp hs
  have hm := findById_mem hq
  rw [findById, hq]
  exact congrArg some (id_inj hnd hm.1 hc hm.2)

/-- A failed `findById` means no pool member carries the id. -/
theorem findById_none_mem {pool : List Comment} {p : Nat}
    (h : findById pool p = none) : ∀ q ∈ pool, q.id ≠ p := by
  rw [findById, List.find?_eq_none] at h
  intro q hq
  have := h q hq
  simpa using this

/-- `findById` fails when no pool member carries the id. -/
theorem findById_none {pool : List Comment} {p : Nat}
    (h : ∀ c ∈ pool, c.id ≠ p) : findById pool p = none := by
  rw [findById, List.find?_eq_none]
  intro c hc
  simp [h c hc]

/-- Records equal up to the depth annotation agree on every other field. -/
theorem eraseDepth_fields {a b : Comment} (h : eraseDepth a = eraseDepth b) :
    a.id = b.id ∧ a.owner = b.owner ∧ a.parent = b.parent := by
  cases a
  cases b
  simp only [eraseDepth, Comment.mk.injEq] at h
  simp_all

/-- Setting the same depth on records equal up to depth yields equal records. -/
theorem setDepth_congr {a b : Comment} (h : eraseDepth a = eraseDepth b) (d : Nat) :
    ({ a with depth := d } : Comment) = { b with depth := d } := by
  cases a
  cases b
  simp only [eraseDepth, Comment.mk.injEq] at h
  simp_all

/-- Lists equal up to depth annotations have the same length. -/
theorem map_eraseDepth_length {l₁ l₂ : List Comment}
    (h : l₁.map eraseDepth = l₂.map eraseDepth) : l₁.length = l₂.length := by
  have := congrArg List.length h
  simpa using this

/-- The ancestor count ignores the depth annotation of its argument. -/
theorem ancCountF_setDepth (f : Nat) (pool : List Comment) (c : Comment) (d : Nat) :
    ancCountF f pool { c with depth := d } = ancCountF f pool c := by
  cases f with
  | zero => rfl
  | succ f => rfl

/-- Chains lose their head. -/
theorem linkedChain_tail {x y : Comment} {r : List Comment}
    (h : LinkedChain (x :: y :: r)) : LinkedChain (y :: r) := h.2

/-- An element of a chain is either the final root or has the next chain element
as its parent. -/
theorem linkedChain_split {l l₁ : List Comment} {a : Comment} {l₂ : List Comment}
    (hl : LinkedChain l) (he : l = l₁ ++ a :: l₂) :
    (a.parent = none ∧ l₂ = []) ∨ ∃ b l₂', l₂ = b :: l₂' ∧ a.parent = some b.id := by
  induction l₁ generalizing l with
  | nil =>
    subst he
    cases l₂ with
    | nil => exact Or.inl ⟨hl, rfl⟩
    | cons b l₂' => exact Or.inr ⟨b, l₂', rfl, hl.1⟩
  | cons x l₁ ih =>
    subst he
    have h2 : LinkedChain (l₁ ++ a :: l₂) := by
      rw [List.cons_append] at hl
      cases hr : l₁ ++ a :: l₂ with
      | nil => simp at hr
      | cons y r =>
        rw [hr] at hl
        exact hl.2
    exact ih h2 rfl

/-- No element of a duplicate-free chain within a duplicate-free pool can be a
child of the chain's head. -/
theorem chain_no_backedge {pool : List Comment} (hnd : NodupIds pool)
    {hd : Comment} {tl : List Comment}
    (hch : LinkedChain (hd :: tl)) (hn : ((hd :: tl).map Comment.id).Nodup)
    (hp : ∀ x ∈ hd :: tl, x ∈ pool)
    {a : Comment} (ha : a ∈ hd :: tl) (hpar : a.parent = some hd.id) : False := by
  obtain ⟨l₁, l₂, he⟩ := List.append_of_mem ha
  rcases linkedChain_split hch he with ⟨hnone, _⟩ | ⟨b, l₂', hl₂, hab⟩
  · rw [hpar] at hnone
    cases hnone
  · rw [hpar] at hab
    injection hab with hidb
    have hb_mem : b ∈ hd :: tl := by
      rw [he, hl₂]
      exact List.mem_append_right _ (List.mem_cons_of_mem _ (List.mem_cons_self _ _))
    have hbhd : b = hd := id_inj hnd (hp b hb_mem) (hp hd (List.mem_cons_self _ _)) hidb.symm
    subst hbhd
    rw [hl₂] at he
    have hmem : b ∈ tl := by
      cases l₁ with
      | nil =>
        rw [List.nil_append] at he
        injection he with h1 h2
        rw [h2]
        exact List.mem_cons_self _ _
      | cons x l₁ =>
        rw [List.cons_append] at he
        injection he with h1 h2
        rw [h2]
        exact List.mem_append_right _ (List.mem_cons_of_mem _ (List.mem_cons_self _ _))
    simp only [List.map_cons, List.nodup_cons] at hn
    exact hn.1 (List.mem_map_of_mem _ hmem)

/-- Extending a duplicate-free chain by a child of its head keeps ids
duplicate-free. -/
theorem chain_extend_nodup {pool : List Comment} (hnd : NodupIds pool)
    {node : Comment} {chain : List Comment}
    (hch : LinkedChain (node :: chain)) (hn : ((node :: chain).map Comment.id).Nodup)
    (hp : ∀ x ∈ node :: chain, x ∈ pool)
    {s : Comment} (hs : s ∈ pool) (hsp : s.parent = some node.id) :
    ((s :: node :: chain).map Comment.id).Nodup := by
  rw [List.map_cons, List.nodup_cons]
  refine ⟨?_, hn⟩
  intro hmem
  obtain ⟨a, ha, haid⟩ := List.mem_map.mp hmem
  have haeq : a = s := id_inj hnd (hp a ha) hs haid
  subst haeq
  exact chain_no_backedge hnd hch hn hp ha hsp

/-- A duplicate-free chain inside the pool is no longer than the pool. -/
theorem chain_length_le {pool : List Comment} {l : List Comment}
    (hn : (l.map Comment.id).Nodup) (hp : ∀ x ∈ l, x ∈ pool) :
    l.length ≤ pool.length := by
  have hsub : l.map Comment.id ⊆ pool.map Comment.id := by
    intro i hi
    obtain ⟨a, ha, rfl⟩ := List.mem_map.mp hi
    exact List.mem_map_of_mem _ (hp a ha)
  have := (hn.subperm hsub).length_le
  simpa using this

/-- Ancestor counts are stable under extra fuel. -/
theorem ancCountF_mono {pool : List Comment} :
    ∀ (f : Nat) {f' : Nat} {c : Comment} {k : Nat}, f ≤ f' →
      ancCountF f pool c = some k → ancCountF f' pool c = some k := by
  intro f
  induction f with
  | zero =>
    intro f' c k _ h
    cases h
  | succ f ih =>
    intro f' c k hle h
    obtain ⟨f'', rfl⟩ : ∃ g, f' = g + 1 := ⟨f' - 1, by omega⟩
    cases hc : c.parent with
    | none =>
      simp only [ancCountF, hc] at h ⊢
      exact h
    | some p =>
      cases hf : findById pool p with
      | none =>
        simp only [ancCountF, hc, hf] at h ⊢
        exact h
      | some q =>
        simp only [ancCountF, hc, hf] at h ⊢
        cases hq : ancCountF f pool q with
        | none =>
          rw [hq] at h
          simp at h
        | some k' =>
          rw [hq] at h
          rw [ih (by omega) hq]
          exact h

/-- Reachability of the root is stable under extra fuel once the ancestor count
resolves. -/
theorem reachF_stable {pool : List Comment} :
    ∀ (f : Nat) {f' : Nat} {c : Comment} {k : Nat}, f ≤ f' →
      ancCountF f pool c = some k → reachF f' pool c = reachF f pool c := by
  intro f
  induction f with
  | zero =>
    intro f' c k _ h
    cases h
  | succ f ih =>
    intro f' c k hle h
    obtain ⟨f'', rfl⟩ : ∃ g, f' = g + 1 := ⟨f' - 1, by omega⟩
    cases hc : c.parent with
    | none => simp only [reachF, hc]
    | some p =>
      cases hf : findById pool p with
      | none => simp only [reachF, hc, hf]
      | some q =>
        simp only [ancCountF, hc, hf] at h
        simp only [reachF, hc, hf]
        cases hq : ancCountF f pool q with
        | none =>
          rw [hq] at h
          simp at h
        | some k' => exact ih (by omega) hq

/-- The child scan succeeds as soon as the recursive call succeeds on every
matching child. -/
theorem scanChildren_isSome {rec : Comment → Nat → Option (List Comment)} {node : Comment} :
    ∀ (scan : List Comment) (depth : Nat),
      (∀ s ∈ scan, s.parent = some node.id → (rec s (depth + 1)).isSome) →
      (scanChildren rec node scan depth).isSome := by
  intro scan
  induction scan with
  | nil =>
    intro depth _
    simp [scanChildren]
  | cons s rest ih =>
    intro depth h
    rw [scanChildren]
    split
    case isTrue hg =>
      have hp : s.parent = some node.id := by simpa using hg
      obtain ⟨t, ht⟩ :=
        Option.isSome_iff_exists.mp (h s (List.mem_cons_self _ _) hp)
      rw [ht]
      obtain ⟨ts, hts⟩ := Option.isSome_iff_exists.mp
        (ih depth (fun x hx hxp => h x (List.mem_cons_of_mem _ hx) hxp))
      rw [hts]
      rfl
    case isFalse hg =>
      exact ih depth (fun x hx hxp => h x (List.mem_cons_of_mem _ hx) hxp)

/-- With distinct ids, `dfs` succeeds from any node that sits atop a
duplicate-free ancestor chain, given fuel covering the remaining pool. -/
theorem dfs_isSome {pool : List Comment} (hnd : NodupIds pool) :
    ∀ (f : Nat) (node : Comment) (chain : List Comment) (d : Nat),
      node ∈ pool → (∀ x ∈ node :: chain, x ∈ pool) →
      LinkedChain (node :: chain) → ((node :: chain).map Comment.id).Nodup →
      pool.length + 1 ≤ f + (chain.length + 1) →
      (dfs f node pool d).isSome := by
  intro f
  induction f with
  | zero =>
    intro node chain d hnode hp hch hn hlen
    exfalso
    have hle := chain_length_le hn hp
    simp only [List.length_cons] at hle
    omega
  | succ f ih =>
    intro node chain d hnode hp hch hn hlen
    rw [dfs]
    have hscan : (scanChildren (fun s dd => dfs f s pool dd) node pool d).isSome := by
      apply scanChildren_isSome pool d
      intro s hs hsp
      have hp' : ∀ x ∈ s :: node :: chain, x ∈ pool := by
        intro x hx
        rcases List.mem_cons.mp hx with rfl | hx
        · exact hs
        · exact hp x hx
      have hch' : LinkedChain (s :: node :: chain) :=
        show s.parent = some node.id ∧ LinkedChain (node :: chain) from ⟨hsp, hch⟩
      have hn' := chain_extend_nodup hnd hch hn hp hs hsp
      apply ih s (node :: chain) (d + 1) hs hp' hch' hn'
      simp only [List.length_cons]
      omega
    obtain ⟨ts, hts⟩ := Option.isSome_iff_exists.mp hscan
    rw [hts]
    rfl

/-- The root loop succeeds with fuel at least the pool size when ids are
distinct. -/
theorem rootsLoop_isSome {pool : List Comment} (hnd : NodupIds pool) (f : Nat)
    (hf : pool.length ≤ f) :
    ∀ scan, (∀ x ∈ scan, x ∈ pool) → (rootsLoop f pool scan).isSome := by
  intro scan
  induction scan with
  | nil =>
    intro _
    simp [rootsLoop]
  | cons c rest ih =>
    intro hsub
    rw [rootsLoop]
    split
    case isTrue hroot =>
      have hcpool : c ∈ pool := hsub c (List.mem_cons_self _ _)
      have hsome : (dfs f c pool 0).isSome := by
        apply dfs_isSome hnd f c [] 0 hcpool
        · intro x hx
          rcases List.mem_cons.mp hx with rfl | hx
          · exact hcpool
          · cases hx
        · exact Option.isNone_iff_eq_none.mp hroot
        · simp
        · simp
          omega
      obtain ⟨t, ht⟩ := Option.isSome_iff_exists.mp hsome
      rw [ht]
      obtain ⟨ts, hts⟩ := Option.isSome_iff_exists.mp
        (ih (fun x hx => hsub x (List.mem_cons_of_mem _ hx)))
      rw [hts]
      rfl
    case isFalse hg =>
      exact ih (fun x hx => hsub x (List.mem_cons_of_mem _ hx))

/-- C10: with pairwise distinct ids, `get_tree` terminates — the supplied fuel is
never exhausted — even when the parent links contain cycles; `dfs` is entered
only from roots and each recursion chain visits distinct comments, so comments
on a parent cycle are simply never reached. -/
theorem spec_c10 (store : List Comment) (o : Owner)
    (hnd : NodupIds (fetchFor store o)) : (get_tree store o).isSome := by
  rw [get_tree]
  exact rootsLoop_isSome hnd _ (by omega) _ (fun x hx => hx)

/-- Witness for C10: a store whose ids 2 and 3 form a parent cycle still yields
a result (the cycle is dropped, the root is kept). -/
theorem spec_c10_witness :
    NodupIds (fetchFor storeCycle ownerO) ∧ (get_tree storeCycle ownerO).isSome :=
  ⟨by decide, spec_c10 storeCycle ownerO (by decide)⟩

/-- A successful child scan produces a concatenation of subtrees in which every
element either has its parent earlier in the scan output one level up, or is a
direct child of the scanned node. -/
theorem scanChildren_linked {rec : Comment → Nat → Option (List Comment)} {node : Comment}
    (hrec : ∀ s d' t, rec s d' = some t →
      ∃ rest, t = { s with depth := d' } :: rest ∧ ChildLinked s.id d' rest) :
    ∀ (scan : List Comment) (depth : Nat) (ts : List Comment),
      scanChildren rec node scan depth = some ts → ChildLinked node.id depth ts := by
  intro scan
  induction scan with
  | nil =>
    intro depth ts h
    simp only [scanChildren, Option.some.injEq] at h
    subst h
    intro l₁ c l₂ p he _
    exact absurd he (by simp)
  | cons s rest ih =>
    intro depth ts h
    rw [scanChildren] at h
    split at h
    case isTrue hg =>
      have hp : s.parent = some node.id := by simpa using hg
      cases ht : rec s (depth + 1) with
      | none => simp [ht] at h
      | some t =>
        simp only [ht] at h
        cases hts : scanChildren rec node rest depth with
        | none => simp [hts] at h
        | some ts' =>
          simp only [hts, Option.some.injEq] at h
          subst h
          obtain ⟨rest_s, hts_eq, hcl⟩ := hrec s (depth + 1) t ht
          have ihl := ih depth ts' hts
          intro l₁ c l₂ p he hcp
          rcases append_eq_append_cons t ts' l₁ c l₂ he with ⟨l₂', ht2, _⟩ | ⟨l₁', hl₁, hts2⟩
          · have hcomb := hts_eq.symm.trans ht2
            cases l₁ with
            | nil =>
              rw [List.nil_append] at hcomb
              injection hcomb with h1 h2
              right
              rw [← h1] at hcp
              simp only [] at hcp
              rw [hp] at hcp
              injection hcp with hpn
              exact ⟨hpn.symm, by rw [← h1]⟩
            | cons b l₁ =>
              rw [List.cons_append] at hcomb
              injection hcomb with h1 h2
              rcases hcl l₁ c l₂' p h2 hcp with ⟨b', hb', hid, hdep⟩ | ⟨hpid, hdep⟩
              · exact Or.inl ⟨b', List.mem_cons_of_mem _ hb', hid, hdep⟩
              · refine Or.inl ⟨b, List.mem_cons_self _ _, ?_, ?_⟩
                · rw [← h1, hpid]
                · rw [← h1, hdep]
          · rcases ihl l₁' c l₂ p hts2 hcp with ⟨b, hb, hid, hdep⟩ | hright
            · exact Or.inl ⟨b, by rw [hl₁]; exact List.mem_append_right _ hb, hid, hdep⟩
            · exact Or.inr hright
    case isFalse hg =>
      exact ih depth ts h

/-- A successful `dfs` emits its node first, depth-annotated, followed by a
child-linked concatenation of subtrees. -/
theorem dfs_shape {pool : List Comment} :
    ∀ (f : Nat) (node : Comment) (d : Nat) (t : List Comment),
      dfs f node pool d = some t →
      ∃ rest, t = { node with depth := d } :: rest ∧ ChildLinked node.id d rest := by
  intro f
  induction f with
  | zero =>
    intro node d t h
    cases h
  | succ f ih =>
    intro node d t h
    rw [dfs] at h
    cases hs : scanChildren (fun s dd => dfs f s pool dd) node pool d with
    | none => simp [hs] at h
    | some ts =>
      simp only [hs, Option.some.injEq] at h
      subst h
      exact ⟨ts, rfl, scanChildren_linked (fun s d' t' ht' => ih s d' t' ht') pool d ts hs⟩

/-- In the output of the root loop, every comment carrying a parent reference is
preceded by an occurrence of its parent one depth level up. -/
theorem rootsLoop_linked {pool : List Comment} (f : Nat) :
    ∀ (scan : List Comment) (out : List Comment),
      rootsLoop f pool scan = some out →
      ∀ l₁ c l₂ p, out = l₁ ++ c :: l₂ → c.parent = some p →
        ∃ b ∈ l₁, b.id = p ∧ b.depth + 1 = c.depth := by
  intro scan
  induction scan with
  | nil =>
    intro out h
    simp only [rootsLoop, Option.some.injEq] at h
    subst h
    intro l₁ c l₂ p he _
    exact absurd he (by simp)
  | cons c₀ rest ih =>
    intro out h
    rw [rootsLoop] at h
    split at h
    case isTrue hroot =>
      cases hd : dfs f c₀ pool 0 with
      | none => simp [hd] at h
      | some t =>
        simp only [hd] at h
        cases hr : rootsLoop f pool rest with
        | none => simp [hr] at h
        | some ts =>
          simp only [hr, Option.some.injEq] at h
          subst h
          obtain ⟨rest₀, ht_eq, hcl⟩ := dfs_shape f c₀ 0 t hd
          intro l₁ c l₂ p he hcp
          rcases append_eq_append_cons t ts l₁ c l₂ he with ⟨l₂', ht2, _⟩ | ⟨l₁', hl₁, hts2⟩
          · have hcomb := ht_eq.symm.trans ht2
            cases l₁ with
            | nil =>
              rw [List.nil_append] at hcomb
              injection hcomb with h1 h2
              exfalso
              rw [← h1] at hcp
              simp only [] at hcp
              rw [Option.isNone_iff_eq_none.mp hroot] at hcp
              exact Option.noConfusion hcp
            | cons b l₁ =>
              rw [List.cons_append] at hcomb
              injection hcomb with h1 h2
              rcases hcl l₁ c l₂' p h2 hcp with ⟨b', hb', hid, hdep⟩ | ⟨hpid, hdep⟩
              · exact ⟨b', List.mem_cons_of_mem _ hb', hid, hdep⟩
              · refine ⟨b, List.mem_cons_self _ _, ?_, ?_⟩
                · rw [← h1, hpid]
                · rw [← h1, hdep]
          · obtain ⟨b, hb, hid, hdep⟩ := ih ts hr l₁' c l₂ p hts2 hcp
            exact ⟨b, by rw [hl₁]; exact List.mem_append_right _ hb, hid, hdep⟩
    case isFalse hg =>
      exact ih out h

/-- Every element of a successful child scan is a depth-reannotated pool member
and carries a parent reference. -/
theorem scanChildren_mem {pool : List Comment} {rec : Comment → Nat → Option (List Comment)}
    {node : Comment}
    (hrec : ∀ s d' t, s ∈ pool → rec s d' = some t →
      ∀ c ∈ t, (∃ q ∈ pool, eraseDepth c = eraseDepth q) ∧
        (c.parent = none → c = { s with depth := d' })) :
    ∀ (scan : List Comment), (∀ x ∈ scan, x ∈ pool) →
      ∀ (depth : Nat) (ts : List Comment), scanChildren rec node scan depth = some ts →
      ∀ c ∈ ts, (∃ q ∈ pool, eraseDepth c = eraseDepth q) ∧ c.parent ≠ none := by
  intro scan
  induction scan with
  | nil =>
    intro _ depth ts h
    simp only [scanChildren, Option.some.injEq] at h
    subst h
    intro c hc
    cases hc
  | cons s rest ih =>
    intro hsub depth ts h
    have hs_pool : s ∈ pool := hsub s (List.mem_cons_self _ _)
    have hsubr : ∀ x ∈ rest, x ∈ pool := fun x hx => hsub x (List.mem_cons_of_mem _ hx)
    rw [scanChildren] at h
    split at h
    case isTrue hg =>
      have hsp : s.parent = some node.id := by simpa using hg
      cases ht : rec s (depth + 1) with
      | none => simp [ht] at h
      | some t =>
        simp only [ht] at h
        cases hts : scanChildren rec node rest depth with
        | none => simp [hts] at h
        | some ts' =>
          simp only [hts, Option.some.injEq] at h
          subst h
          intro c hc
          rcases List.mem_append.mp hc with hct | hcts
          · obtain ⟨hshape, hroot⟩ := hrec s (depth + 1) t hs_pool ht c hct
            refine ⟨hshape, ?_⟩
            intro hnone
            have hceq := hroot hnone
            rw [hceq] at hnone
            simp only [] at hnone
            rw [hsp] at hnone
            exact Option.noConfusion hnone
          · exact ih hsubr depth ts' hts c hcts
    case isFalse hg =>
      exact ih hsubr depth ts h

/-- Every element of a successful `dfs` is a depth-reannotated pool member, and
only the entry node itself can be parentless. -/
theorem dfs_mem {pool : List Comment} :
    ∀ (f : Nat) (node : Comment) (d : Nat) (t : List Comment), node ∈ pool →
      dfs f node pool d = some t →
      ∀ c ∈ t, (∃ q ∈ pool, eraseDepth c = eraseDepth q) ∧
        (c.parent = none → c = { node with depth := d }) := by
  intro f
  induction f with
  | zero =>
    intro node d t _ h
    cases h
  | succ f ih =>
    intro node d t hnode h
    rw [dfs] at h
    cases hs : scanChildren (fun s dd => dfs f s pool dd) node pool d with
    | none => simp [hs] at h
    | some ts =>
      simp only [hs, Option.some.injEq] at h
      subst h
      intro c hc
      rcases List.mem_cons.mp hc with rfl | hcts
      · exact ⟨⟨node, hnode, rfl⟩, fun _ => rfl⟩
      · have hm := scanChildren_mem
          (fun s d' t' hsp ht' => ih s d' t' hsp ht') pool (fun x hx => hx) d ts hs c hcts
        exact ⟨hm.1, fun hn => absurd hn hm.2⟩

/-- Every element of the root loop's output is a depth-reannotated pool member,
and parentless elements appear exactly at depth zero. -/
theorem rootsLoop_mem {pool : List Comment} (f : Nat) :
    ∀ (scan : List Comment), (∀ x ∈ scan, x ∈ pool) →
      ∀ (out : List Comment), rootsLoop f pool scan = some out →
      ∀ c ∈ out, (∃ q ∈ pool, eraseDepth c = eraseDepth q) ∧
        (c.parent = none → c.depth = 0) := by
  intro scan
  induction scan with
  | nil =>
    intro _ out h
    simp only [rootsLoop, Option.some.injEq] at h
    subst h
    intro c hc
    cases hc
  | cons c₀ rest ih =>
    intro hsub out h
    rw [rootsLoop] at h
    split at h
    case isTrue hroot =>
      cases hd : dfs f c₀ pool 0 with
      | none => simp [hd] at h
      | some t =>
        simp only [hd] at h
        cases hr : rootsLoop f pool rest with
        | none => simp [hr] at h
        | some ts =>
          simp only [hr, Option.some.injEq] at h
          subst h
          intro c hc
          rcases List.mem_append.mp hc with hct | hcts
          · have hm := dfs_mem f c₀ 0 t (hsub c₀ (List.mem_cons_self _ _)) hd c hct
            refine ⟨hm.1, fun hn => ?_⟩
            rw [hm.2 hn]
          · exact ih (fun x hx => hsub x (List.mem_cons_of_mem _ hx)) ts hr c hcts
    case isFalse hg =>
      exact ih (fun x hx => hsub x (List.mem_cons_of_mem _ hx)) out h

/-- In an acyclic pool with distinct ids, a child's ancestor count is one more
than its parent's. -/
theorem anc_child {pool : List Comment} (hnd : NodupIds pool) (hac : AcyclicPool pool)
    {node s : Comment} (hnode : node ∈ pool) (hs : s ∈ pool)
    (hsp : s.parent = some node.id) {d : Nat}
    (hd : ancCountF (pool.length + 1) pool node = some d) :
    ancCountF (pool.length + 1) pool s = some (d + 1) := by
  obtain ⟨ks, hks⟩ := Option.isSome_iff_exists.mp (hac s hs)
  have hfind : findById pool node.id = some node := findById_self hnd hnode
  simp only [ancCountF, hsp, hfind] at hks
  cases hq : ancCountF pool.length pool node with
  | none =>
    rw [hq] at hks
    simp at hks
  | some k' =>
    rw [hq] at hks
    have hmono := ancCountF_mono pool.length (Nat.le_succ _) hq
    rw [hd] at hmono
    injection hmono with hk'd
    subst hk'd
    simp only [ancCountF, hsp, hfind]
    rw [hq]
    rfl

/-- If the recursive calls annotate each emitted comment with its ancestor
count, so does the child scan, provided the scanned node is annotated with its
own ancestor count. -/
theorem scanChildren_anc {pool : List Comment} (hnd : NodupIds pool) (hac : AcyclicPool pool)
    {node : Comment} {rec : Comment → Nat → Option (List Comment)} (hnode : node ∈ pool)
    (hrec : ∀ s d' t, s ∈ pool → ancCountF (pool.length + 1) pool s = some d' →
      rec s d' = some t → ∀ c ∈ t, ancCountF (pool.length + 1) pool c = some c.depth) :
    ∀ (scan : List Comment), (∀ x ∈ scan, x ∈ pool) →
      ∀ (depth : Nat), ancCountF (pool.length + 1) pool node = some depth →
      ∀ (ts : List Comment), scanChildren rec node scan depth = some ts →
      ∀ c ∈ ts, ancCountF (pool.length + 1) pool c = some c.depth := by
  intro scan
  induction scan with
  | nil =>
    intro _ depth _ ts h
    simp only [scanChildren, Option.some.injEq] at h
    subst h
    intro c hc
    cases hc
  | cons s rest ih =>
    intro hsub depth hdep ts h
    have hs_pool : s ∈ pool := hsub s (List.mem_cons_self _ _)
    have hsubr : ∀ x ∈ rest, x ∈ pool := fun x hx => hsub x (List.mem_cons_of_mem _ hx)
    rw [scanChildren] at h
    split at h
    case isTrue hg =>
      have hsp : s.parent = some node.id := by simpa using hg
      cases ht : rec s (depth + 1) with
      | none => simp [ht] at h
      | some t =>
        simp only [ht] at h
        cases hts : scanChildren rec node rest depth with
        | none => simp [hts] at h
        | some ts' =>
          simp only [hts, Option.some.injEq] at h
          subst h
          intro c hc
          rcases List.mem_append.mp hc with hct | hcts
          · exact hrec s (depth + 1) t hs_pool
              (anc_child hnd hac hnode hs_pool hsp hdep) ht c hct
          · exact ih hsubr depth hdep ts' hts c hcts
    case isFalse hg =>
      exact ih hsubr depth hdep ts h

/-- A successful `dfs` entered with the node's own ancestor count as depth
annotates every emitted comment with its ancestor count. -/
theorem dfs_anc {pool : List Comment} (hnd : NodupIds pool) (hac : AcyclicPool pool) :
    ∀ (f : Nat) (node : Comment) (d : Nat) (t : List Comment), node ∈ pool →
      ancCountF (pool.length + 1) pool node = some d →
      dfs f node pool d = some t →
      ∀ c ∈ t, ancCountF (pool.length + 1) pool c = some c.depth := by
  intro f
  induction f with
  | zero =>
    intro node d t _ _ h
    cases h
  | succ f ih =>
    intro node d t hnode hdep h
    rw [dfs] at h
    cases hs : scanChildren (fun s dd => dfs f s pool dd) node pool d with
    | none => simp [hs] at h
    | some ts =>
      simp only [hs, Option.some.injEq] at h
      subst h
      intro c hc
      rcases List.mem_cons.mp hc with rfl | hcts
      · rw [ancCountF_setDepth]
        exact hdep
      · exact scanChildren_anc hnd hac hnode
          (fun s d' t' hsp hanc ht' => ih s d' t' hsp hanc ht')
          pool (fun x hx => hx) d hdep ts hs c hcts

/-- The root loop annotates every emitted comment with its ancestor count
within the pool. -/
theorem rootsLoop_anc {pool : List Comment} (hnd : NodupIds pool) (hac : AcyclicPool pool)
    (f : Nat) :
    ∀ (scan : List Comment), (∀ x ∈ scan, x ∈ pool) →
      ∀ (out : List Comment), rootsLoop f pool scan = some out →
      ∀ c ∈ out, ancCountF (pool.length + 1) pool c = some c.depth := by
  intro scan
  induction scan with
  | nil =>
    intro _ out h
    simp only [rootsLoop, Option.some.injEq] at h
    subst h
    intro c hc
    cases hc
  | cons c₀ rest ih =>
    intro hsub out h
    rw [rootsLoop] at h
    split at h
    case isTrue hroot =>
      cases hd : dfs f c₀ pool 0 with
      | none => simp [hd] at h
      | some t =>
        simp only [hd] at h
        cases hr : rootsLoop f pool rest with
        | none => simp [hr] at h
        | some ts =>
          simp only [hr, Option.some.injEq] at h
          subst h
          intro c hc
          have hc₀ : c₀ ∈ pool := hsub c₀ (List.mem_cons_self _ _)
          rcases List.mem_append.mp hc with hct | hcts
          · have hanc0 : ancCountF (pool.length + 1) pool c₀ = some 0 := by
              simp [ancCountF, Option.isNone_iff_eq_none.mp hroot]
            exact dfs_anc hnd hac f c₀ 0 t hc₀ hanc0 hd c hct
          · exact ih (fun x hx => hsub x (List.mem_cons_of_mem _ hx)) ts hr c hcts
    case isFalse hg =>
      exact ih (fun x hx => hsub x (List.mem_cons_of_mem _ hx)) out h

/-- C1: on an acyclic pool with distinct ids, in the sequence `get_tree`
returns, every comment with a parent reference is preceded by an occurrence of
its parent annotated one depth level lower; every parentless comment appears
with depth 0; and every emitted comment's depth equals the number of its
ancestors within the owner's pool. -/
theorem spec_c1 (store : List Comment) (o : Owner)
    (hnd : NodupIds (fetchFor store o)) (hac : AcyclicPool (fetchFor store o))
    (out : List Comment) (hout : get_tree store o = some out) :
    (∀ l₁ c l₂ p, out = l₁ ++ c :: l₂ → c.parent = some p →
        ∃ b ∈ l₁, b.id = p ∧ b.depth + 1 = c.depth) ∧
      (∀ c ∈ out, c.parent = none → c.depth = 0) ∧
      (∀ c ∈ out,
        ancCountF ((fetchFor store o).length + 1) (fetchFor store o) c = some c.depth) := by
  rw [get_tree] at hout
  refine ⟨rootsLoop_linked _ _ out hout, ?_, ?_⟩
  · intro c hc
    exact (rootsLoop_mem _ _ (fun x hx => hx) out hout c hc).2
  · exact rootsLoop_anc hnd hac _ _ (fun x hx => hx) out hout

/-- Witness for C1: the C4 store satisfies the hypotheses, and in its tree all
parentless comments carry depth 0. -/
theorem spec_c1_witness :
    NodupIds (fetchFor storeABCD ownerO) ∧ AcyclicPool (fetchFor storeABCD ownerO) ∧
      ∀ c ∈ treeABCD, c.parent = none → c.depth = 0 := by
  refine ⟨by decide, by decide, ?_⟩
  exact (spec_c1 storeABCD ownerO (by decide) (by decide) treeABCD (by decide)).2.1

/-- Occurrence counting through the child scan: each occurrence of the parent id
`p` emitted below `node` spawns exactly one occurrence of the child `cc`, plus
one direct occurrence per matching scan entry when `node` is the parent. -/
theorem scanChildren_cnt {pool : List Comment} (hnd : NodupIds pool)
    {node : Comment} {rec : Comment → Nat → Option (List Comment)}
    {cc : Comment} {p : Nat} (hcc : cc ∈ pool) (hccp : cc.parent = some p)
    (hrec : ∀ s d' t, s ∈ pool → rec s d' = some t →
      cntId cc.id t = cntId p t + (if s.id = cc.id then 1 else 0)) :
    ∀ (scan : List Comment), (∀ x ∈ scan, x ∈ pool) →
      ∀ (depth : Nat) (ts : List Comment), scanChildren rec node scan depth = some ts →
      cntId cc.id ts = cntId p ts +
        (if p = node.id then scan.countP (fun s => s.id == cc.id) else 0) := by
  intro scan
  induction scan with
  | nil =>
    intro _ depth ts h
    simp only [scanChildren, Option.some.injEq] at h
    subst h
    simp [cntId]
  | cons s rest ih =>
    intro hsub depth ts h
    have hs_pool : s ∈ pool := hsub s (List.mem_cons_self _ _)
    have hsubr : ∀ x ∈ rest, x ∈ pool := fun x hx => hsub x (List.mem_cons_of_mem _ hx)
    rw [scanChildren] at h
    split at h
    case isTrue hg =>
      have hsp : s.parent = some node.id := by simpa using hg
      cases ht : rec s (depth + 1) with
      | none => simp [ht] at h
      | some t =>
        simp only [ht] at h
        cases hts : scanChildren rec node rest depth with
        | none => simp [hts] at h
        | some ts' =>
          simp only [hts, Option.some.injEq] at h
          subst h
          have h1 := hrec s (depth + 1) t hs_pool ht
          have h2 := ih hsubr depth ts' hts
          rw [cntId_append, cntId_append, List.countP_cons]
          by_cases hsc : s.id = cc.id
          · have hseq : s = cc := id_inj hnd hs_pool hcc hsc
            have hpn : p = node.id := by
              rw [hseq, hccp] at hsp
              injection hsp
            have hb : (s.id == cc.id) = true := by simp [hsc]
            rw [if_pos hsc] at h1
            rw [if_pos hpn] at h2
            rw [if_pos hpn, if_pos hb]
            omega
          · have hb : ¬((s.id == cc.id) = true) := by simp [hsc]
            rw [if_neg hsc] at h1
            by_cases hpn : p = node.id
            · rw [if_pos hpn] at h2
              rw [if_pos hpn, if_neg hb]
              omega
            · rw [if_neg hpn] at h2
              rw [if_neg hpn]
              omega
    case isFalse hg =>
      have h2 := ih hsubr depth ts h
      rw [List.countP_cons]
      by_cases hpn : p = node.id
      · have hb : ¬((s.id == cc.id) = true) := by
          by_cases hsc : s.id = cc.id
          · exfalso
            apply hg
            have hseq : s = cc := id_inj hnd hs_pool hcc hsc
            rw [hseq, hccp, hpn]
            simp
          · simp [hsc]
        rw [if_pos hpn] at h2
        rw [if_pos hpn, if_neg hb]
        omega
      · rw [if_neg hpn] at h2
        rw [if_neg hpn]
        omega

/-- Occurrence counting through `dfs` from `node`: the child `cc` is emitted once
per emission of its parent id `p`, plus once if `node` is `cc` itself. -/
theorem dfs_cnt {pool : List Comment} (hnd : NodupIds pool) {cc : Comment} {p : Nat}
    (hcc : cc ∈ pool) (hccp : cc.parent = some p) :
    ∀ (f : Nat) (node : Comment) (d : Nat) (t : List Comment), node ∈ pool →
      dfs f node pool d = some t →
      cntId cc.id t = cntId p t + (if node.id = cc.id then 1 else 0) := by
  intro f
  induction f with
  | zero =>
    intro node d t _ h
    cases h
  | succ f ih =>
    intro node d t hnode h
    rw [dfs] at h
    cases hs : scanChildren (fun s dd => dfs f s pool dd) node pool d with
    | none => simp [hs] at h
    | some ts =>
      simp only [hs, Option.some.injEq] at h
      subst h
      have hscan := scanChildren_cnt hnd hcc hccp
        (fun s d' t' hsp ht' => ih s d' t' hsp ht') pool (fun x hx => hx) d ts hs
      have hone : pool.countP (fun s => s.id == cc.id) = 1 := by
        have h0 := countP_id_eq_one hnd hcc (fun _ => true) rfl
        simpa using h0
      rw [hone] at hscan
      rw [cntId_cons, cntId_cons]
      show cntId cc.id ts + (if node.id = cc.id then 1 else 0) =
        (cntId p ts + (if node.id = p then 1 else 0)) + (if node.id = cc.id then 1 else 0)
      by_cases hpn : p = node.id
      · rw [if_pos hpn] at hscan
        rw [if_pos hpn.symm]
        by_cases hnc : node.id = cc.id
        · rw [if_pos hnc]
          omega
        · rw [if_neg hnc]
          omega
      · rw [if_neg hpn] at hscan
        have hnp : ¬(node.id = p) := fun e => hpn e.symm
        rw [if_neg hnp]
        by_cases hnc : node.id = cc.id
        · rw [if_pos hnc]
          omega
        · rw [if_neg hnc]
          omega

/-- A root comment is never emitted by a child scan. -/
theorem scanChildren_cnt_root {pool : List Comment} (hnd : NodupIds pool)
    {node : Comment} {rec : Comment → Nat → Option (List Comment)}
    {rr : Comment} (hr : rr ∈ pool) (hrp : rr.parent = none)
    (hrec : ∀ s d' t, s ∈ pool → rec s d' = some t →
      cntId rr.id t = if s.id = rr.id then 1 else 0) :
    ∀ (scan : List Comment), (∀ x ∈ scan, x ∈ pool) →
      ∀ (depth : Nat) (ts : List Comment), scanChildren rec node scan depth = some ts →
      cntId rr.id ts = 0 := by
  intro scan
  induction scan with
  | nil =>
    intro _ depth ts h
    simp only [scanChildren, Option.some.injEq] at h
    subst h
    simp [cntId]
  | cons s rest ih =>
    intro hsub depth ts h
    have hs_pool : s ∈ pool := hsub s (List.mem_cons_self _ _)
    have hsubr : ∀ x ∈ rest, x ∈ pool := fun x hx => hsub x (List.mem_cons_of_mem _ hx)
    rw [scanChildren] at h
    split at h
    case isTrue hg =>
      have hsp : s.parent = some node.id := by simpa using hg
      cases ht : rec s (depth + 1) with
      | none => simp [ht] at h
      | some t =>
        simp only [ht] at h
        cases hts : scanChildren rec node rest depth with
        | none => simp [hts] at h
        | some ts' =>
          simp only [hts, Option.some.injEq] at h
          subst h
          have h1 := hrec s (depth + 1) t hs_pool ht
          have hs0 : (if s.id = rr.id then 1 else 0) = 0 := by
            by_cases hsr : s.id = rr.id
            · exfalso
              have hseq : s = rr := id_inj hnd hs_pool hr hsr
              rw [hseq, hrp] at hsp
              exact Option.noConfusion hsp
            · simp [hsr]
          rw [cntId_append, h1, hs0, ih hsubr depth ts' hts]
    case isFalse hg =>
      exact ih hsubr depth ts h

/-- Through `dfs`, a root comment is emitted exactly when it is the entry
node. -/
theorem dfs_cnt_root {pool : List Comment} (hnd : NodupIds pool)
    {rr : Comment} (hr : rr ∈ pool) (hrp : rr.parent = none) :
    ∀ (f : Nat) (node : Comment) (d : Nat) (t : List Comment), node ∈ pool →
      dfs f node pool d = some t →
      cntId rr.id t = if node.id = rr.id then 1 else 0 := by
  intro f
  induction f with
  | zero =>
    intro node d t _ h
    cases h
  | succ f ih =>
    intro node d t hnode h
    rw [dfs] at h
    cases hs : scanChildren (fun s dd => dfs f s pool dd) node pool d with
    | none => simp [hs] at h
    | some ts =>
      simp only [hs, Option.some.injEq] at h
      subst h
      have hscan := scanChildren_cnt_root hnd hr hrp
        (fun s d' t' hsp ht' => ih s d' t' hsp ht') pool (fun x hx => hx) d ts hs
      rw [cntId_cons, hscan]
      simp

/-- Through the root loop, a comment with parent id `p` is emitted as often as
`p` itself. -/
theorem rootsLoop_cnt_child {pool : List Comment} (hnd : NodupIds pool)
    {cc : Comment} {p : Nat} (hcc : cc ∈ pool) (hccp : cc.parent = some p) (f : Nat) :
    ∀ (scan : List Comment), (∀ x ∈ scan, x ∈ pool) →
      ∀ (out : List Comment), rootsLoop f pool scan = some out →
      cntId cc.id out = cntId p out := by
  intro scan
  induction scan with
  | nil =>
    intro _ out h
    simp only [rootsLoop, Option.some.injEq] at h
    subst h
    simp [cntId]
  | cons c₀ rest ih =>
    intro hsub out h
    rw [rootsLoop] at h
    split at h
    case isTrue hroot =>
      have hc₀ : c₀ ∈ pool := hsub c₀ (List.mem_cons_self _ _)
      cases hd : dfs f c₀ pool 0 with
      | none => simp [hd] at h
      | some t =>
        simp only [hd] at h
        cases hr : rootsLoop f pool rest with
        | none => simp [hr] at h
        | some ts =>
          simp only [hr, Option.some.injEq] at h
          subst h
          have h1 := dfs_cnt hnd hcc hccp f c₀ 0 t hc₀ hd
          have hc0 : (if c₀.id = cc.id then 1 else 0) = 0 := by
            by_cases h0 : c₀.id = cc.id
            · exfalso
              have hseq : c₀ = cc := id_inj hnd hc₀ hcc h0
              rw [hseq, hccp] at hroot
              exact Bool.noConfusion hroot
            · simp [h0]
          rw [cntId_append, cntId_append, h1, hc0,
            ih (fun x hx => hsub x (List.mem_cons_of_mem _ hx)) ts hr]
          omega
    case isFalse hg =>
      exact ih (fun x hx => hsub x (List.mem_cons_of_mem _ hx)) out h

/-- Through the root loop, a root comment is emitted once per matching root scan
entry. -/
theorem rootsLoop_cnt_root {pool : List Comment} (hnd : NodupIds pool)
    {rr : Comment} (hr : rr ∈ pool) (hrp : rr.parent = none) (f : Nat) :
    ∀ (scan : List Comment), (∀ x ∈ scan, x ∈ pool) →
      ∀ (out : List Comment), rootsLoop f pool scan = some out →
      cntId rr.id out = scan.countP (fun x => x.parent.isNone && (x.id == rr.id)) := by
  intro scan
  induction scan with
  | nil =>
    intro _ out h
    simp only [rootsLoop, Option.some.injEq] at h
    subst h
    simp [cntId]
  | cons c₀ rest ih =>
    intro hsub out h
    rw [rootsLoop] at h
    split at h
    case isTrue hroot =>
      have hc₀ : c₀ ∈ pool := hsub c₀ (List.mem_cons_self _ _)
      cases hd : dfs f c₀ pool 0 with
      | none => simp [hd] at h
      | some t =>
        simp only [hd] at h
        cases hr' : rootsLoop f pool rest with
        | none => simp [hr'] at h
        | some ts =>
          simp only [hr', Option.some.injEq] at h
          subst h
          have h1 := dfs_cnt_root hnd hr hrp f c₀ 0 t hc₀ hd
          rw [cntId_append, h1, ih (fun x hx => hsub x (List.mem_cons_of_mem _ hx)) ts hr',
            List.countP_cons, hroot]
          by_cases h0 : c₀.id = rr.id
          · simp [h0]
            omega
          · simp [h0]
    case isFalse hg =>
      have hnf : c₀.parent.isNone = false := by
        revert hg
        cases c₀.parent.isNone <;> simp
      rw [List.countP_cons, hnf]
      simp
      exact ih (fun x hx => hsub x (List.mem_cons_of_mem _ hx)) out h

/-- An id carried by no pool member never appears in the root loop's output. -/
theorem rootsLoop_cnt_absent {pool : List Comment} (f : Nat) {j : Nat}
    (hj : ∀ q ∈ pool, q.id ≠ j) :
    ∀ (scan : List Comment), (∀ x ∈ scan, x ∈ pool) →
      ∀ (out : List Comment), rootsLoop f pool scan = some out → cntId j out = 0 := by
  intro scan hsub out h
  rw [cntId, List.countP_eq_zero]
  intro c hc
  obtain ⟨⟨q, hq, he⟩, _⟩ := rootsLoop_mem f scan hsub out h c hc
  have hcq : c.id = q.id := (eraseDepth_fields he).1
  simp [hcq, hj q hq]

/-- A pool member is emitted by the root loop exactly once if its ancestor chain
reaches a root, and not at all otherwise. -/
theorem cnt_reach {pool : List Comment} (hnd : NodupIds pool) (f : Nat)
    {out : List Comment} (hout : rootsLoop f pool pool = some out) :
    ∀ (k : Nat) (c : Comment), c ∈ pool → ancCountF (pool.length + 1) pool c = some k →
      cntId c.id out = if reachF (pool.length + 1) pool c then 1 else 0 := by
  intro k
  induction k with
  | zero =>
    intro c hc hk
    cases hcp : c.parent with
    | none =>
      have hreach : reachF (pool.length + 1) pool c = true := by
        simp [reachF, hcp]
      rw [hreach, if_pos rfl]
      rw [rootsLoop_cnt_root hnd hc hcp f pool (fun x hx => hx) out hout]
      exact countP_id_eq_one hnd hc (fun x => x.parent.isNone) (by simp [hcp])
    | some p =>
      cases hf : findById pool p with
      | none =>
        have hreach : reachF (pool.length + 1) pool c = false := by
          simp [reachF, hcp, hf]
        rw [hreach, if_neg (by simp : ¬(false = true))]
        rw [rootsLoop_cnt_child hnd hc hcp f pool (fun x hx => hx) out hout]
        exact rootsLoop_cnt_absent f (findById_none_mem hf) pool (fun x hx => hx) out hout
      | some q =>
        simp only [ancCountF, hcp, hf] at hk
        cases hq : ancCountF pool.length pool q with
        | none =>
          rw [hq] at hk
          simp at hk
        | some k' =>
          rw [hq] at hk
          simp at hk
  | succ k ih =>
    intro c hc hk
    cases hcp : c.parent with
    | none =>
      simp only [ancCountF, hcp] at hk
      simp at hk
    | some p =>
      cases hf : findById pool p with
      | none =>
        simp only [ancCountF, hcp, hf] at hk
        simp at hk
      | some q =>
        simp only [ancCountF, hcp, hf] at hk
        have hq_pool : q ∈ pool := (findById_mem hf).1
        cases hq : ancCountF pool.length pool q with
        | none =>
          rw [hq] at hk
          simp at hk
        | some k' =>
          rw [hq] at hk
          simp at hk
          have hq' : ancCountF pool.length pool q = some k := by
            rw [hq]
            exact congrArg some (by omega)
          have hq1 : ancCountF (pool.length + 1) pool q = some k :=
            ancCountF_mono pool.length (Nat.le_succ _) hq'
          have ihq := ih q hq_pool hq1
          have hst := reachF_stable pool.length (Nat.le_succ _) hq'
          have hcr : reachF (pool.length + 1) pool c = reachF pool.length pool q := by
            simp [reachF, hcp, hf]
          have hcnt := rootsLoop_cnt_child hnd hc hcp f pool (fun x hx => hx) out hout
          have hpq : p = q.id := (findById_mem hf).2.symm
          rw [hcnt, hpq, ihq, hcr, ← hst]

/-- If every pool member's parent reference resolves within the pool, then every
ancestor chain reaches a root. -/
theorem reach_of_parents {pool : List Comment}
    (h : ∀ c ∈ pool, ∀ p, c.parent = some p → ∃ q ∈ pool, q.id = p) :
    ∀ (k : Nat) (c : Comment), c ∈ pool → ancCountF (pool.length + 1) pool c = some k →
      reachF (pool.length + 1) pool c = true := by
  intro k
  induction k with
  | zero =>
    intro c hc hk
    cases hcp : c.parent with
    | none => simp [reachF, hcp]
    | some p =>
      cases hf : findById pool p with
      | none =>
        exfalso
        obtain ⟨q, hq, hqid⟩ := h c hc p hcp
        exact findById_none_mem hf q hq hqid
      | some q =>
        exfalso
        simp only [ancCountF, hcp, hf] at hk
        cases hq : ancCountF pool.length pool q with
        | none =>
          rw [hq] at hk
          simp at hk
        | some k' =>
          rw [hq] at hk
          simp at hk
  | succ k ih =>
    intro c hc hk
    cases hcp : c.parent with
    | none => simp [reachF, hcp]
    | some p =>
      cases hf : findById pool p with
      | none =>
        exfalso
        obtain ⟨q, hq, hqid⟩ := h c hc p hcp
        exact findById_none_mem hf q hq hqid
      | some q =>
        have hq_pool : q ∈ pool := (findById_mem hf).1
        simp only [ancCountF, hcp, hf] at hk
        cases hq : ancCountF pool.length pool q with
        | none =>
          rw [hq] at hk
          simp at hk
        | some k' =>
          rw [hq] at hk
          simp at hk
          have hq' : ancCountF pool.length pool q = some k := by
            rw [hq]
            exact congrArg some (by omega)
          have hq1 : ancCountF (pool.length + 1) pool q = some k :=
            ancCountF_mono pool.length (Nat.le_succ _) hq'
          have hr := ih q hq_pool hq1
          have hst := reachF_stable pool.length (Nat.le_succ _) hq'
          simp only [reachF, hcp, hf]
          rw [← hst]
          exact hr

/-- Output length of the root loop: at most the pool size, with equality exactly
when every parent reference resolves within the pool. -/
theorem tree_len {pool : List Comment} (hnd : NodupIds pool) (hac : AcyclicPool pool)
    (f : Nat) {out : List Comment} (hout : rootsLoop f pool pool = some out) :
    out.length ≤ pool.length ∧
      (out.length = pool.length ↔
        ∀ c ∈ pool, ∀ p, c.parent = some p → ∃ q ∈ pool, q.id = p) := by
  have hmem : ∀ c ∈ out, c.id ∈ pool.map Comment.id := by
    intro c hc
    obtain ⟨⟨q, hq, he⟩, _⟩ := rootsLoop_mem f pool (fun x hx => hx) out hout c hc
    rw [(eraseDepth_fields he).1]
    exact List.mem_map_of_mem _ hq
  have hsum := cnt_sum out (pool.map Comment.id) hnd hmem
  have hcnt : ∀ c ∈ pool, cntId c.id out =
      if reachF (pool.length + 1) pool c then 1 else 0 := by
    intro c hc
    obtain ⟨k, hk⟩ := Option.isSome_iff_exists.mp (hac c hc)
    exact cnt_reach hnd f hout k c hc hk
  have hle1 : ∀ i ∈ pool.map Comment.id, cntId i out ≤ 1 := by
    intro i hi
    obtain ⟨c, hc, rfl⟩ := List.mem_map.mp hi
    rw [hcnt c hc]
    split <;> omega
  obtain ⟨hb, hiff⟩ := sum_map_le_length (pool.map Comment.id) (fun i => cntId i out) hle1
  rw [hsum, List.length_map] at hb hiff
  refine ⟨hb, ?_⟩
  rw [hiff]
  constructor
  · intro h c hc p hp
    have h1 := h c.id (List.mem_map_of_mem _ hc)
    rw [hcnt c hc] at h1
    have hr : reachF (pool.length + 1) pool c = true := by
      by_cases hr : reachF (pool.length + 1) pool c = true
      · exact hr
      · rw [if_neg hr] at h1
        cases h1
    simp only [reachF, hp] at hr
    cases hf : findById pool p with
    | none =>
      simp only [hf] at hr
      simp at hr
    | some q => exact ⟨q, (findById_mem hf).1, (findById_mem hf).2⟩
  · intro h i hi
    obtain ⟨c, hc, rfl⟩ := List.mem_map.mp hi
    obtain ⟨k, hk⟩ := Option.isSome_iff_exists.mp (hac c hc)
    rw [hcnt c hc, if_pos (reach_of_parents h k c hc hk)]

/-- C2: on an acyclic pool with distinct ids, the length of the sequence
`get_tree` returns is at most the number of the owner's comments, and equals it
exactly when every non-root comment's parent is present among the same owner's
comments. -/
theorem spec_c2 (store : List Comment) (o : Owner)
    (hnd : NodupIds (fetchFor store o)) (hac : AcyclicPool (fetchFor store o))
    (out : List Comment) (hout : get_tree store o = some out) :
    out.length ≤ (fetchFor store o).length ∧
      (out.length = (fetchFor store o).length ↔
        ∀ c ∈ fetchFor store o, ∀ p, c.parent = some p →
          ∃ q ∈ fetchFor store o, q.id = p) := by
  rw [get_tree] at hout
  exact tree_len hnd hac _ hout

/-- Witness for C2: on the C4 store the bound holds and, the output having full
length, every parent reference resolves in the pool. -/
theorem spec_c2_witness :
    treeABCD.length ≤ (fetchFor storeABCD ownerO).length ∧
      ∀ c ∈ fetchFor storeABCD ownerO, ∀ p, c.parent = some p →
        ∃ q ∈ fetchFor storeABCD ownerO, q.id = p := by
  refine ⟨(spec_c2 storeABCD ownerO (by decide) (by decide) treeABCD (by decide)).1, ?_⟩
  exact (spec_c2 storeABCD ownerO (by decide) (by decide) treeABCD (by decide)).2.mp
    (by decide)

/-- C3: a comment whose parent reference points at no comment of its own owner
(nonexistent id, or an id owned by someone else) is silently omitted from its
owner's tree, which is still produced without error. -/
theorem spec_c3 (store : List Comment) (o : Owner) (x : Comment) (p : Nat)
    (hnd : NodupIds (fetchFor store o))
    (hx : x ∈ store) (hxo : x.owner = o) (hxp : x.parent = some p)
    (hp : ∀ c ∈ store, c.id = p → c.owner ≠ o) :
    ∃ out, get_tree store o = some out ∧ ∀ c ∈ out, c.id ≠ x.id := by
  have hsome : (get_tree store o).isSome := by
    rw [get_tree]
    exact rootsLoop_isSome hnd _ (by omega) _ (fun x hx => hx)
  obtain ⟨out, hout⟩ := Option.isSome_iff_exists.mp hsome
  refine ⟨out, hout, ?_⟩
  rw [get_tree] at hout
  have hx_pool : x ∈ fetchFor store o := by
    rw [fetchFor, List.mem_filter]
    exact ⟨hx, by simp [hxo]⟩
  have habsent : ∀ q ∈ fetchFor store o, q.id ≠ p := by
    intro q hq
    rw [fetchFor, List.mem_filter] at hq
    intro hqp
    exact hp q hq.1 hqp (by simpa using hq.2)
  have h1 := rootsLoop_cnt_child hnd hx_pool hxp _ _ (fun c hc => hc) out hout
  have h2 := rootsLoop_cnt_absent _ habsent _ (fun c hc => hc) out hout
  intro c hc hcx
  have h0 : cntId x.id out = 0 := h1.trans h2
  rw [cntId, List.countP_eq_zero] at h0
  exact h0 c hc (by simp [hcx])

/-- Witness for C3: the comment with id 5 points at a comment owned by another
owner; its owner's tree omits it. -/
theorem spec_c3_witness :
    ∃ out, get_tree storeCross ownerO = some out ∧
      ∀ c ∈ out, c.id ≠ (mkC ownerO 5 (some 9)).id :=
  spec_c3 storeCross ownerO (mkC ownerO 5 (some 9)) 9 (by decide) (by decide) (by decide)
    (by decide) (by decide)

/-- The child scan does not depend on the incoming depth annotations of the
node or the scanned pool. -/
theorem scanChildren_congr {rec₁ rec₂ : Comment → Nat → Option (List Comment)}
    (hrec : ∀ s₁ s₂ d', eraseDepth s₁ = eraseDepth s₂ → rec₁ s₁ d' = rec₂ s₂ d')
    {node₁ node₂ : Comment} (hnode : eraseDepth node₁ = eraseDepth node₂) :
    ∀ (scan₁ scan₂ : List Comment), scan₁.map eraseDepth = scan₂.map eraseDepth →
      ∀ depth, scanChildren rec₁ node₁ scan₁ depth = scanChildren rec₂ node₂ scan₂ depth := by
  intro scan₁
  induction scan₁ with
  | nil =>
    intro scan₂ h depth
    cases scan₂ with
    | nil => rfl
    | cons s₂ r₂ => simp at h
  | cons s₁ r₁ ih =>
    intro scan₂ h depth
    cases scan₂ with
    | nil => simp at h
    | cons s₂ r₂ =>
      simp only [List.map_cons, List.cons.injEq] at h
      obtain ⟨hs, hr⟩ := h
      rw [scanChildren, scanChildren]
      have hguard : (s₁.parent == some node₁.id) = (s₂.parent == some node₂.id) := by
        rw [(eraseDepth_fields hs).2.2, (eraseDepth_fields hnode).1]
      rw [hguard, hrec s₁ s₂ (depth + 1) hs, ih r₂ hr depth]

/-- `dfs` does not depend on the incoming depth annotations: it overwrites every
depth it emits. -/
theorem dfs_congr :
    ∀ (f : Nat) {node₁ node₂ : Comment} {pool₁ pool₂ : List Comment} (d : Nat),
      eraseDepth node₁ = eraseDepth node₂ → pool₁.map eraseDepth = pool₂.map eraseDepth →
      dfs f node₁ pool₁ d = dfs f node₂ pool₂ d := by
  intro f
  induction f with
  | zero =>
    intro node₁ node₂ pool₁ pool₂ d _ _
    rfl
  | succ f ih =>
    intro node₁ node₂ pool₁ pool₂ d hnode hpool
    rw [dfs, dfs]
    rw [scanChildren_congr (fun s₁ s₂ d' hs => ih d' hs hpool) hnode pool₁ pool₂ hpool d]
    rw [setDepth_congr hnode d]

/-- The root loop does not depend on the incoming depth annotations. -/
theorem rootsLoop_congr (f : Nat) {pool₁ pool₂ : List Comment}
    (hpool : pool₁.map eraseDepth = pool₂.map eraseDepth) :
    ∀ (scan₁ scan₂ : List Comment), scan₁.map eraseDepth = scan₂.map eraseDepth →
      rootsLoop f pool₁ scan₁ = rootsLoop f pool₂ scan₂ := by
  intro scan₁
  induction scan₁ with
  | nil =>
    intro scan₂ h
    cases scan₂ with
    | nil => rfl
    | cons s₂ r₂ => simp at h
  | cons c₁ r₁ ih =>
    intro scan₂ h
    cases scan₂ with
    | nil => simp at h
    | cons c₂ r₂ =>
      simp only [List.map_cons, List.cons.injEq] at h
      obtain ⟨hc, hr⟩ := h
      rw [rootsLoop, rootsLoop]
      have hguard : c₁.parent.isNone = c₂.parent.isNone := by
        rw [(eraseDepth_fields hc).2.2]
      rw [hguard, dfs_congr f 0 hc hpool, ih r₂ hr]

/-- Filtering by owner commutes with erasing depth annotations. -/
theorem fetchFor_congr {store₁ store₂ : List Comment} (o : Owner)
    (h : store₁.map eraseDepth = store₂.map eraseDepth) :
    (fetchFor store₁ o).map eraseDepth = (fetchFor store₂ o).map eraseDepth := by
  induction store₁ generalizing store₂ with
  | nil =>
    cases store₂ with
    | nil => rfl
    | cons c₂ r₂ => simp at h
  | cons c₁ r₁ ih =>
    cases store₂ with
    | nil => simp at h
    | cons c₂ r₂ =>
      simp only [List.map_cons, List.cons.injEq] at h
      obtain ⟨hc, hr⟩ := h
      rw [fetchFor, fetchFor, List.filter_cons, List.filter_cons]
      have hown : (c₁.owner == o) = (c₂.owner == o) := by
        rw [(eraseDepth_fields hc).2.1]
      rw [hown]
      by_cases ho : (c₂.owner == o) = true
      · rw [if_pos ho, if_pos ho]
        simp only [List.map_cons, List.cons.injEq]
        exact ⟨hc, ih hr⟩
      · rw [if_neg ho, if_neg ho]
        exact ih hr

/-- C9: the output of `get_tree` is unchanged if the stored depth annotations
change — in particular, rerunning it after a first run mutated the `depth`
attribute of the fetched comments yields an identical sequence. -/
theorem spec_c9 (store₁ store₂ : List Comment) (o : Owner)
    (h : store₁.map eraseDepth = store₂.map eraseDepth) :
    get_tree store₁ o = get_tree store₂ o := by
  have hf := fetchFor_congr o h
  have hlen := map_eraseDepth_length hf
  rw [get_tree, get_tree, hlen]
  exact rootsLoop_congr _ hf _ _ hf

/-- Witness for C9: a store and its depth-mutated copy produce the same tree. -/
theorem spec_c9_witness :
    ([cA, cB].map eraseDepth = [{ cA with depth := 5 }, { cB with depth := 9 }].map eraseDepth) ∧
      get_tree [cA, cB] ownerO =
        get_tree [{ cA with depth := 5 }, { cB with depth := 9 }] ownerO :=
  ⟨by decide, spec_c9 [cA, cB] [{ cA with depth := 5 }, { cB with depth := 9 }] ownerO
    (by decide)⟩

/-- C4: on the store holding exactly A (root), B (child of A), C (root),
D (child of B) in that order, `get_tree` returns A at depth 0, B at depth 1,
D at depth 2, then C at depth 0. -/
theorem spec_c4 :
    get_tree storeABCD ownerO =
      some [{ cA with depth := 0 }, { cB with depth := 1 },
        { cD with depth := 2 }, { cC with depth := 0 }] := by
  decide

/-- C5: a comment passes the public manager's queryset filter iff `is_public` or
`is_approved` is true, and composing the filter with any further restriction `q`
narrows `q` rather than replacing it: membership in the composed result is
exactly membership in the store plus both predicates. -/
theorem spec_c5 (store : List Comment) (q : Comment → Bool) (c : Comment) :
    c ∈ (public_get_query_set store).filter q ↔
      c ∈ store ∧ q c = true ∧ (c.isPublic || c.isApproved) = true := by
  simp only [public_get_query_set, List.mem_filter]
  tauto

/-- C6: on any save where the markup field is unset or falsy, the persisted
markup equals `PLAINTEXT`; this holds for both comment variants, and in
particular for a freshly created comment with no markup kind. -/
theorem spec_c6 (now : Nat) (c : Comment) (fc : FreeComment) :
    (markupFalsy c.markup = true → (Comment.save now c).markup = some PLAINTEXT) ∧
      (markupFalsy fc.markup = true → (FreeComment.save now fc).markup = some PLAINTEXT) := by
  constructor
  · intro h
    simp only [Comment.save, h, if_true]
    split <;> rfl
  · intro h
    simp only [FreeComment.save, h, if_true]
    split <;> rfl

/-- Helper for C7: a save never changes an already-set `date_approved`. -/
theorem save_keeps_dateApproved (now t : Nat) (c : Comment)
    (h : c.dateApproved = some t) : (Comment.save now c).dateApproved = some t := by
  simp only [Comment.save]
  split
  · split at * <;> simp_all
  · split <;> simp_all

/-- Helper for C7, free-comment variant. -/
theorem free_save_keeps_dateApproved (now t : Nat) (c : FreeComment)
    (h : c.dateApproved = some t) : (FreeComment.save now c).dateApproved = some t := by
  simp only [FreeComment.save]
  split
  · split at * <;> simp_all
  · split <;> simp_all

/-- C7: saving a comment with `date_approved` unset and `is_approved` true stamps
`date_approved` with the current time; once set, a single later save, and hence
any sequence of later saves, leaves it unchanged — re-approving an approved
comment does not move the stamp.  Both comment variants behave identically. -/
theorem spec_c7 (now t : Nat) (c : Comment) (fc : FreeComment) :
    (c.dateApproved = none → c.isApproved = true →
        (Comment.save now c).dateApproved = some now) ∧
      (c.dateApproved = some t → (Comment.save now c).dateApproved = some t) ∧
      (∀ nows : List Nat, c.dateApproved = some t →
        (nows.foldl (fun acc n => Comment.save n acc) c).dateApproved = some t) ∧
      (fc.dateApproved = none → fc.isApproved = true →
        (FreeComment.save now fc).dateApproved = some now) ∧
      (fc.dateApproved = some t → (FreeComment.save now fc).dateApproved = some t) ∧
      (∀ nows : List Nat, fc.dateApproved = some t →
        (nows.foldl (fun acc n => FreeComment.save n acc) fc).dateApproved = some t) := by
  refine ⟨?_, ?_, ?_, ?_, ?_, ?_⟩
  · intro h₁ h₂
    simp only [Comment.save]
    split <;> simp_all
  · exact save_keeps_dateApproved now t c
  · intro nows
    induction nows generalizing c with
    | nil => intro h; exact h
    | cons n rest ih =>
      intro h
      exact ih _ (save_keeps_dateApproved n t c h)
  · intro h₁ h₂
    simp only [FreeComment.save]
    split <;> simp_all
  · exact free_save_keeps_dateApproved now t fc
  · intro nows
    induction nows generalizing fc with
    | nil => intro h; exact h
    | cons n rest ih =>
      intro h
      exact ih _ (free_save_keeps_dateApproved n t fc h)

/-- C8: `get_for_object` returns the unique record matching the owner reference
plus the caller's filter, fails with NotFound when zero records match, and fails
with MultipleResults when more than one matches. -/
theorem spec_c8 (store : List Comment) (o : Owner) (q : Comment → Bool) :
    (store.filter (fun c => c.owner == o && q c) = [] →
        get_for_object store o q = Except.error GetError.NotFound) ∧
      (∀ c, store.filter (fun c => c.owner == o && q c) = [c] →
        get_for_object store o q = Except.ok c) ∧
      (∀ c₁ c₂ r, store.filter (fun c => c.owner == o && q c) = c₁ :: c₂ :: r →
        get_for_object store o q = Except.error GetError.MultipleResults) := by
  refine ⟨?_, ?_, ?_⟩
  · intro h
    simp [get_for_object, djangoGet, h]
  · intro c h
    simp [get_for_object, djangoGet, h]
  · intro c₁ c₂ r h
    simp [get_for_object, djangoGet, h]

/-- Witness for C6: a comment and a free comment saved with markup `none` come
out with markup `PLAINTEXT`. -/
theorem spec_c6_witness :
    markupFalsy cFresh.markup = true ∧ markupFalsy fcBlank.markup = true ∧
      (Comment.save 7 cFresh).markup = some PLAINTEXT ∧
      (FreeComment.save 7 fcBlank).markup = some PLAINTEXT := by
  exact ⟨by decide, by decide, (spec_c6 7 cFresh fcBlank).1 (by decide),
    (spec_c6 7 cFresh fcBlank).2 (by decide)⟩

/-- Witness for C7: stamping at time 7 then saving again at times 9 and 11 keeps
`date_approved = some 7`. -/
theorem spec_c7_witness :
    cFresh.dateApproved = none ∧ cFresh.isApproved = true ∧
      (Comment.save 7 cFresh).dateApproved = some 7 ∧
      ([9, 11].foldl (fun acc n => Comment.save n acc)
        (Comment.save 7 cFresh)).dateApproved = some 7 := by
  refine ⟨by decide, by decide, ?_, ?_⟩
  · exact (spec_c7 7 7 cFresh fcBlank).1 (by decide) (by decide)
  · exact (spec_c7 7 7 (Comment.save 7 cFresh) fcBlank).2.2.1 [9, 11] (by decide)

/-- Witness for C8: on a store with two comments matching the owner and an
all-pass filter, `get_for_object` fails with MultipleResults. -/
theorem spec_c8_witness :
    get_for_object [mkC ownerO 1 none, mkC ownerO 2 none] ownerO (fun _ => true) =
      Except.error GetError.MultipleResults := by
  exact (spec_c8 [mkC ownerO 1 none, mkC ownerO 2 none] ownerO (fun _ => true)).2.2
    (mkC ownerO 1 none) (mkC ownerO 2 none) [] (by decide)

end ThreadedComments
